import Mathlib

/-!
Verification of `cache-test.cpp`, a cache-latency micro-benchmark.

The program builds, for each byte size in a fixed sweep list, an index
buffer `items` with `items[i] = i`, shuffles it with `std::shuffle`
driven by a seeded `std::default_random_engine`, then pointer-chases
through it (`next = items[next]`) for `max(100'000'000, n)` hops and
prints one row per size, finally returning 0.

Shallow embedding notes:
* `std::vector<size_t>` becomes `List Nat`.
* The unchecked access `items[next]` in `hop_read` is embedded as the
  partial access `l[i]?`; an out-of-bounds access yields `none`
  (modelling the undefined-behaviour branch that the C++ code omits).
* `std::shuffle` performs, for each position `i` from `1` to `n - 1` in
  ascending order, a swap of cells `i` and `j` where `j` is a draw from
  a uniform distribution on `[0, i]`.  The random draws are abstracted
  as a function `f : Nat → Nat`; the value used at position `i` is
  `f i % (i + 1)`, which ranges over exactly `[0, i]`.
* The `__rdtsc` cycle-counter readings and the printed floating-point
  timing column are hardware/timing effects outside the embedding; the
  rows we model keep the size and the traversal result, which is what
  the behavioural claims are about.
-/

/-- Embedding of `hop_read`'s loop body iterated `k` times, threading the
current index through `Option`: `next = items[next]`, where an
out-of-bounds read gives `none`. -/
def hopLoop (items : List Nat) : Nat → Option Nat → Option Nat
  | 0, o => o
  | k + 1, o => hopLoop items k (o.bind fun next => items[next]?)

/-- Embedding of `hop_read`: starting from `next = 0`, perform
`num_hops` iterations of `next = items[next]` and return the final
`next` (`none` when any access was out of bounds, which in the C++
source is the undefined-behaviour case excluded by the caller). -/
def hop_read (items : List Nat) (num_hops : Nat) : Option Nat :=
  hopLoop items num_hops (some 0)

/-- State of the traversal loop: the (read-only) buffer and the running
index.  Used to express that the buffer is not mutated. -/
structure HopState where
  items : List Nat
  next : Nat
  deriving Repr, DecidableEq

/-- One loop iteration of `hop_read` on the explicit state. -/
def hopStep (s : HopState) : Option HopState :=
  (s.items[s.next]?).map fun v => { items := s.items, next := v }

/-- `num_hops` iterations of `hop_read`'s loop on the explicit state. -/
def hopRun (s : HopState) : Nat → Option HopState
  | 0 => some s
  | k + 1 => (hopStep s).bind fun s2 => hopRun s2 k

/-- Total version of one pointer-chasing step `i ↦ items[i]`, used for
the cycle-structure claims (on a permutation buffer every index read is
in range, so the default value is never used there). -/
def nextIdx (items : List Nat) (i : Nat) : Nat :=
  items.getD i 0

/-- `iterNext items k i` follows `next = items[next]` for `k` steps
starting at `i`. -/
def iterNext (items : List Nat) : Nat → Nat → Nat
  | 0, i => i
  | k + 1, i => iterNext items k (nextIdx items i)

/-- The swap `std::swap(l[i], l[j])` performed by the shuffle: both
reads happen before both writes. -/
def listSwap (l : List Nat) (i j : Nat) : List Nat :=
  (l.set i (l.getD j 0)).set j (l.getD i 0)

/-- The first `i` swap steps of `std::shuffle` on `l`, positions
`1, …, i` in ascending order; the partner of position `m` is
`f m % (m + 1)`, a uniform draw from `[0, m]` abstracted by `f`. -/
def shuffleSteps (f : Nat → Nat) (l : List Nat) : Nat → List Nat
  | 0 => l
  | i + 1 => listSwap (shuffleSteps f l i) (i + 1) (f (i + 1) % (i + 2))

/-- Embedding of `std::shuffle(items.begin(), items.end(), gen)`: swap
steps at positions `1, …, n − 1` where `n` is the length. -/
def shuffle (f : Nat → Nat) (l : List Nat) : List Nat :=
  shuffleSteps f l (l.length - 1)

/-- The identity-initialisation loop `for i in [0, n): items[i] = i`. -/
def initItems (n : Nat) : List Nat :=
  List.range n

/-- The index buffer of one sweep iteration: identity initialisation
followed by the shuffle with random draws `f`. -/
def buffer (n : Nat) (f : Nat → Nat) : List Nat :=
  shuffle f (initItems n)

/-- `sizeof(size_t)` on the targeted platform: 8 bytes. -/
def element_width : Nat := 8

/-- The sweep size list `sizes` from `main`, in source order. -/
def sizes : List Nat :=
  [1 <<< 10, 1 <<< 11, 1 <<< 12, 1 <<< 13, 1 <<< 14,
   1 <<< 15, 1 <<< 16, 1 <<< 17, 1 <<< 18, 1 <<< 19,
   1 <<< 20, 1 <<< 21, 1 <<< 22, 1 <<< 23, 1 <<< 24,
   1 <<< 25, 1 <<< 26, 1 <<< 27, 1 <<< 28]

/-- The hop-count computation of `main`: start from `100 * 1000 * 1000`
and raise it to `elems` when `elems > num_hops`. -/
def num_hops_for (elems : Nat) : Nat :=
  let base := 100 * 1000 * 1000
  if elems > base then elems else base

/-- The sweep driver of `main`.  `fs sz` abstracts the random draws of
the iteration for size `sz` (the engine is re-seeded from the clock each
iteration); `argc`/`argv` are the unused command-line parameters.
Returns the data rows `(size, traversal result)` and the exit status.
The timing column is a hardware measurement outside the embedding. -/
def runMain (fs : Nat → Nat → Nat) (argc : Nat) (argv : List String) :
    List (Nat × Option Nat) × Nat :=
  (sizes.map fun sz =>
    let elems := sz / element_width
    let items := buffer elems (fs sz)
    let num_hops := num_hops_for elems
    (sz, hop_read items num_hops),
   0)

/-- Concrete draw sequence exhibiting a shuffle outcome that is not a
single cycle (every draw picks the position itself, leaving the
identity permutation in place). -/
def drawsId : Nat → Nat := fun i => i

/-- Concrete draw sequence used in witnesses. -/
def drawsW : Nat → Nat := fun i => 7 * i + 3

/- ### Helper lemmas -/

theorem hopLoop_eq_iterate (l : List Nat) :
    ∀ (k : Nat) (o : Option Nat),
      hopLoop l k o = (fun o => o.bind fun i => l[i]?)^[k] o := by
  intro k
  induction k with
  | zero => intro o; rfl
  | succ k ih =>
    intro o
    rw [hopLoop, ih, Function.iterate_succ_apply]

theorem iterNext_add (l : List Nat) (a b i : Nat) :
    iterNext l (a + b) i = iterNext l b (iterNext l a i) := by
  induction a generalizing i with
  | zero => rw [Nat.zero_add]; rfl
  | succ a ih =>
    have h : a + 1 + b = (a + b) + 1 := by omega
    rw [h, iterNext, ih, iterNext]

/-- `listSwap` preserves length. -/
theorem listSwap_length (l : List Nat) (i j : Nat) :
    (listSwap l i j).length = l.length := by
  simp [listSwap]

/-- Writing back the element already stored at `j` does not change the
list. -/
theorem set_getD_self (l : List Nat) :
    ∀ j, j < l.length → l.set j (l.getD j 0) = l := by
  induction l with
  | nil => intro j hj; simp at hj
  | cons a t ih =>
    intro j hj
    cases j with
    | zero => simp
    | succ j =>
      simp only [List.getD_cons_succ, List.set_cons_succ]
      rw [ih j (by simpa using hj)]

/-- Moving the element at index `j` to the front while writing `a` at
`j` is a permutation of putting `a` in front. -/
theorem cons_set_perm (a : Nat) :
    ∀ (t : List Nat) (j : Nat), j < t.length →
      (t.getD j 0 :: t.set j a).Perm (a :: t) := by
  intro t
  induction t with
  | nil => intro j hj; simp at hj
  | cons b u ih =>
    intro j hj
    cases j with
    | zero =>
      simp only [List.getD_cons_zero, List.set_cons_zero]
      exact List.Perm.swap a b u
    | succ j =>
      have hj' : j < u.length := by simpa using hj
      simp only [List.getD_cons_succ, List.set_cons_succ]
      have h1 : (u.getD j 0 :: b :: u.set j a).Perm (b :: u.getD j 0 :: u.set j a) :=
        List.Perm.swap b (u.getD j 0) _
      have h2 : (b :: u.getD j 0 :: u.set j a).Perm (b :: a :: u) :=
        (ih j hj').cons b
      have h3 : (b :: a :: u).Perm (a :: b :: u) := List.Perm.swap a b u
      exact (h1.trans h2).trans h3

/-- A swap of two in-range cells is a permutation of the original
list. -/
theorem listSwap_perm :
    ∀ (l : List Nat) (i j : Nat), i < l.length → j < l.length →
      (listSwap l i j).Perm l := by
  intro l
  induction l with
  | nil => intro i j hi; simp at hi
  | cons a t ih =>
    intro i j hi hj
    cases i with
    | zero =>
      cases j with
      | zero =>
        simp [listSwap]
      | succ j =>
        have hj' : j < t.length := by simpa using hj
        simp only [listSwap, List.getD_cons_zero, List.getD_cons_succ,
          List.set_cons_zero, List.set_cons_succ]
        exact cons_set_perm a t j hj'
    | succ i =>
      cases j with
      | zero =>
        have hi' : i < t.length := by simpa using hi
        simp only [listSwap, List.getD_cons_zero, List.getD_cons_succ,
          List.set_cons_succ, List.set_cons_zero]
        exact cons_set_perm a t i hi'
      | succ j =>
        have hi' : i < t.length := by simpa using hi
        have hj' : j < t.length := by simpa using hj
        simp only [listSwap, List.getD_cons_succ, List.set_cons_succ]
        exact (ih i j hi' hj').cons a

/-- Every prefix of the shuffle's swap sequence leaves a permutation of
the input. -/
theorem shuffleSteps_perm (f : Nat → Nat) (l : List Nat) :
    ∀ i, i < l.length → (shuffleSteps f l i).Perm l := by
  intro i
  induction i with
  | zero => intro _; exact List.Perm.refl l
  | succ i ih =>
    intro h
    have hperm : (shuffleSteps f l i).Perm l := ih (by omega)
    have hlen : (shuffleSteps f l i).length = l.length := hperm.length_eq
    have h1 : i + 1 < (shuffleSteps f l i).length := by omega
    have h2 : f (i + 1) % (i + 2) < (shuffleSteps f l i).length := by
      have := Nat.mod_lt (f (i + 1)) (y := i + 2) (by omega)
      omega
    exact (listSwap_perm _ _ _ h1 h2).trans hperm

/-- The shuffled buffer is a permutation of `[0, n)`. -/
theorem buffer_perm (n : Nat) (f : Nat → Nat) :
    (buffer n f).Perm (List.range n) := by
  unfold buffer shuffle initItems
  cases n with
  | zero => exact List.Perm.refl _
  | succ m =>
    have hl : (List.range (m + 1)).length = m + 1 := List.length_range _
    rw [hl]
    exact shuffleSteps_perm f (List.range (m + 1)) m (by omega)

theorem buffer_length (n : Nat) (f : Nat → Nat) :
    (buffer n f).length = n := by
  have := (buffer_perm n f).length_eq
  simpa using this

theorem buffer_mem_lt (n : Nat) (f : Nat → Nat) :
    ∀ x ∈ buffer n f, x < n := by
  intro x hx
  have : x ∈ List.range n := ((buffer_perm n f).mem_iff).1 hx
  simpa using this

theorem buffer_nodup (n : Nat) (f : Nat → Nat) :
    (buffer n f).Nodup := by
  exact ((buffer_perm n f).nodup_iff).2 (List.nodup_range n)

theorem hopLoop_none (l : List Nat) : ∀ k, hopLoop l k none = none := by
  intro k
  induction k with
  | zero => rfl
  | succ k ih => rw [hopLoop]; exact ih

/-- The state-threading loop never changes the buffer component. -/
theorem hopRun_items (l : List Nat) :
    ∀ (k c : Nat) (s2 : HopState), hopRun ⟨l, c⟩ k = some s2 → s2.items = l := by
  intro k
  induction k with
  | zero =>
    intro c s2 h
    have hs : (⟨l, c⟩ : HopState) = s2 := by
      simpa [hopRun] using h
    rw [← hs]
  | succ k ih =>
    intro c s2 h
    rw [hopRun] at h
    cases hg : l[c]? with
    | none => rw [hopStep] at h; simp [hg] at h
    | some v =>
      rw [hopStep] at h
      simp only [hg, Option.map_some, Option.bind_some] at h
      exact ih v s2 h

/-- The state-threading loop computes the same index as `hop_read`'s
loop. -/
theorem hopRun_next (l : List Nat) :
    ∀ (k c : Nat), (hopRun ⟨l, c⟩ k).map HopState.next = hopLoop l k (some c) := by
  intro k
  induction k with
  | zero => intro c; rfl
  | succ k ih =>
    intro c
    rw [hopRun, hopLoop]
    have hb : (some c).bind (fun next => l[next]?) = l[c]? := rfl
    rw [hb]
    cases hg : l[c]? with
    | none =>
      rw [hopStep]
      simp [hg, hopLoop_none]
    | some v =>
      rw [hopStep]
      simp only [hg, Option.map_some, Option.bind_some]
      exact ih v

/- ### Claim theorems -/

/-- C3: for every buffer and every hop count `k`, `hop_read` returns the
`k`-fold iterate of the (partial) map `i ↦ buffer[i]` applied to the
starting index 0: the loop `next = buffer[next]` run `k` times from
`next = 0`. -/
theorem hop_read_is_iterate (l : List Nat) (k : Nat) :
    hop_read l k = (fun o : Option Nat => o.bind fun i => l[i]?)^[k] (some 0) :=
  hopLoop_eq_iterate l k (some 0)

/-- C10: with hop count 0 the traversal performs no buffer access and
returns the starting index 0, even on the empty buffer: the result is
`some 0` (never the out-of-bounds marker) and the state is returned
unchanged. -/
theorem hop_read_zero_hops (l : List Nat) :
    hop_read l 0 = some 0 ∧ hopRun ⟨l, 0⟩ 0 = some ⟨l, 0⟩ :=
  ⟨rfl, rfl⟩

/-- C5: the hop count of a sweep iteration with `n` elements is
`max(100'000'000, n)`; in particular it is at least `n`. -/
theorem num_hops_eq_max (n : Nat) :
    num_hops_for n = max 100000000 n ∧ n ≤ num_hops_for n := by
  have h : num_hops_for n = if n > 100000000 then n else 100000000 := rfl
  rw [h]
  split <;> omega

/-- C6: the sweep list is exactly the powers of two from `2^10 = 1024`
to `2^28 = 268435456`, in strictly ascending order, and every size is an
exact multiple of the 8-byte element width, so the element count
`size / 8` is exact. -/
theorem sizes_spec :
    sizes = (List.range 19).map (fun i => 2 ^ (10 + i)) ∧
    List.Sorted (· < ·) sizes ∧
    (sizes.all fun s =>
      s % element_width == 0 && (s / element_width) * element_width == s) = true :=
  ⟨by decide, by decide, by decide⟩

/-- C9: every sweep size divided by the element width is at most
`2^25 = 33554432 < 100'000'000`, so the hop count is exactly
`100'000'000` for every iteration and the branch raising it to the
element count is never taken. -/
theorem sweep_hop_count_const (s : Nat) (hs : s ∈ sizes) :
    s / element_width ≤ 33554432 ∧
    num_hops_for (s / element_width) = 100000000 ∧
    ¬ (s / element_width > 100 * 1000 * 1000) := by
  have h : (sizes.all fun s =>
      decide (s / element_width ≤ 33554432) &&
      (num_hops_for (s / element_width) == 100000000)) = true := by decide
  rw [List.all_eq_true] at h
  have h2 := h s hs
  simp only [Bool.and_eq_true, decide_eq_true_eq, beq_iff_eq] at h2
  exact ⟨h2.1, h2.2, by omega⟩

/-- Witness for C9 at the first sweep size, 1024 bytes. -/
theorem sweep_hop_count_const_w :
    1024 ∈ sizes ∧
    (1024 / element_width ≤ 33554432 ∧
     num_hops_for (1024 / element_width) = 100000000 ∧
     ¬ (1024 / element_width > 100 * 1000 * 1000)) :=
  ⟨by decide, sweep_hop_count_const 1024 (by decide)⟩

/-- C2: for every element count and every draw sequence, the index
buffer after initialisation and shuffling is a permutation of `[0, n)`:
every value `0 ≤ v < n` occurs exactly once. -/
theorem buffer_is_permutation (n : Nat) (f : Nat → Nat) :
    (buffer n f).Perm (List.range n) ∧
    ∀ v, v < n → (buffer n f).count v = 1 := by
  refine ⟨buffer_perm n f, ?_⟩
  intro v hv
  have hm : v ∈ buffer n f :=
    ((buffer_perm n f).mem_iff).2 (by simpa using hv)
  exact List.count_eq_one_of_mem (buffer_nodup n f) hm

/-- Witness for C2 at `n = 3` with a concrete draw sequence. -/
theorem buffer_is_permutation_w :
    (buffer 3 drawsW).Perm (List.range 3) ∧
    2 < 3 ∧ (buffer 3 drawsW).count 2 = 1 :=
  ⟨(buffer_is_permutation 3 drawsW).1, by decide,
   (buffer_is_permutation 3 drawsW).2 2 (by decide)⟩

/-- C4: if the buffer is non-empty and closed over valid indices, then
no access of `hop_read` goes out of bounds (the `none` branch of the
embedded access is never reached) and the result lies in `[0, n)`. -/
theorem hop_read_safe (l : List Nat) (k : Nat) (hne : l ≠ [])
    (hclosed : ∀ x ∈ l, x < l.length) :
    ∃ r, hop_read l k = some r ∧ r < l.length := by
  suffices h : ∀ (k cur : Nat), cur < l.length →
      ∃ r, hopLoop l k (some cur) = some r ∧ r < l.length by
    exact h k 0 (List.length_pos.2 hne)
  intro k
  induction k with
  | zero => intro cur h; exact ⟨cur, rfl, h⟩
  | succ k ih =>
    intro cur h
    have hget : l[cur]? = some l[cur] := List.getElem?_eq_getElem h
    have hmem : l[cur] ∈ l := List.getElem_mem h
    rw [hopLoop]
    have hb : (some cur).bind (fun next => l[next]?) = l[cur]? := rfl
    rw [hb, hget]
    exact ih l[cur] (hclosed _ hmem)

/-- Witness for C4 on the closed permutation `[1, 2, 0]` with 7 hops. -/
theorem hop_read_safe_w :
    ([1, 2, 0] : List Nat) ≠ [] ∧
    (∀ x ∈ ([1, 2, 0] : List Nat), x < ([1, 2, 0] : List Nat).length) ∧
    ∃ r, hop_read [1, 2, 0] 7 = some r ∧ r < ([1, 2, 0] : List Nat).length :=
  ⟨by decide, by decide, hop_read_safe [1, 2, 0] 7 (by decide) (by decide)⟩

/-- C7: the traversal does not mutate the buffer and is deterministic:
an invocation that ends in state `s2` leaves the buffer exactly as it
was, its result index is the `hop_read` value of `(l, k)`, and invoking
it again on the left-over buffer reaches the very same final state. -/
theorem hop_read_deterministic (l : List Nat) (k : Nat) (s2 : HopState)
    (h : hopRun ⟨l, 0⟩ k = some s2) :
    s2.items = l ∧ hop_read l k = some s2.next ∧
    hopRun ⟨s2.items, 0⟩ k = some s2 := by
  have hitems : s2.items = l := hopRun_items l k 0 s2 h
  refine ⟨hitems, ?_, by rw [hitems]; exact h⟩
  have hnext := hopRun_next l k 0
  rw [h] at hnext
  exact hnext.symm

/-- Witness for C7 on the buffer `[1, 0]` with 3 hops. -/
theorem hop_read_deterministic_w :
    hopRun ⟨[1, 0], 0⟩ 3 = some ⟨[1, 0], 1⟩ ∧
    ((⟨[1, 0], 1⟩ : HopState).items = [1, 0] ∧
     hop_read [1, 0] 3 = some (⟨[1, 0], 1⟩ : HopState).next ∧
     hopRun ⟨(⟨[1, 0], 1⟩ : HopState).items, 0⟩ 3 = some ⟨[1, 0], 1⟩) :=
  ⟨by decide, hop_read_deterministic [1, 0] 3 ⟨[1, 0], 1⟩ (by decide)⟩

/-- C8: for every draw sequence and any command-line arguments, the
sweep driver produces one row per sweep size, the rows cover the sweep
list in order, the exit status is 0, and the arguments do not influence
the run at all. -/
theorem main_always_succeeds (fs : Nat → Nat → Nat) (argc : Nat) (argv : List String) :
    (runMain fs argc argv).2 = 0 ∧
    (runMain fs argc argv).1.length = sizes.length ∧
    (runMain fs argc argv).1.map Prod.fst = sizes ∧
    runMain fs argc argv = runMain fs 0 [] :=
  ⟨rfl, rfl, rfl, rfl⟩

/-- One pointer-chasing step stays inside `[0, n)` on the shuffled
buffer. -/
theorem nextIdx_lt (n : Nat) (f : Nat → Nat) (i : Nat) (hi : i < n) :
    nextIdx (buffer n f) i < n := by
  have hlen : (buffer n f).length = n := buffer_length n f
  have hi' : i < (buffer n f).length := by omega
  have hg : (buffer n f).getD i 0 = (buffer n f)[i] := by
    rw [List.getD_eq_getElem?_getD, List.getElem?_eq_getElem hi']
    rfl
  rw [nextIdx, hg]
  exact buffer_mem_lt n f _ (List.getElem_mem hi')

/-- Iterated pointer-chasing stays inside `[0, n)`. -/
theorem iterNext_lt (n : Nat) (f : Nat → Nat) :
    ∀ (k i : Nat), i < n → iterNext (buffer n f) k i < n := by
  intro k
  induction k with
  | zero => intro i hi; exact hi
  | succ k ih =>
    intro i hi
    show iterNext (buffer n f) k (nextIdx (buffer n f) i) < n
    exact ih _ (nextIdx_lt n f i hi)

/-- One pointer-chasing step is injective on `[0, n)` (the buffer has no
duplicate entries). -/
theorem nextIdx_inj (n : Nat) (f : Nat → Nat) (i j : Nat) (hi : i < n) (hj : j < n)
    (h : nextIdx (buffer n f) i = nextIdx (buffer n f) j) : i = j := by
  have hlen : (buffer n f).length = n := buffer_length n f
  have hi' : i < (buffer n f).length := by omega
  have hj' : j < (buffer n f).length := by omega
  have hgi : (buffer n f).getD i 0 = (buffer n f)[i] := by
    rw [List.getD_eq_getElem?_getD, List.getElem?_eq_getElem hi']
    rfl
  have hgj : (buffer n f).getD j 0 = (buffer n f)[j] := by
    rw [List.getD_eq_getElem?_getD, List.getElem?_eq_getElem hj']
    rfl
  rw [nextIdx, nextIdx, hgi, hgj] at h
  exact ((buffer_nodup n f).getElem_inj_iff).1 h

/-- Iterated pointer-chasing is injective on `[0, n)`. -/
theorem iterNext_inj (n : Nat) (f : Nat → Nat) :
    ∀ (k i j : Nat), i < n → j < n →
      iterNext (buffer n f) k i = iterNext (buffer n f) k j → i = j := by
  intro k
  induction k with
  | zero => intro i j _ _ h; exact h
  | succ k ih =>
    intro i j hi hj h
    have h2 : iterNext (buffer n f) k (nextIdx (buffer n f) i) =
        iterNext (buffer n f) k (nextIdx (buffer n f) j) := h
    have h3 := ih _ _ (nextIdx_lt n f i hi) (nextIdx_lt n f j hj) h2
    exact nextIdx_inj n f i j hi hj h3

/-- C1, counterexample: with element count `n = 2` and the draw sequence
that leaves the identity permutation in place, the traversal from
index 0 returns to 0 after a single hop, so it does not visit `n = 2`
distinct indices before 0 recurs — `std::shuffle` draws an arbitrary
permutation and does not guarantee a single cycle. -/
theorem single_cycle_cex :
    ¬ (iterNext (buffer 2 drawsId) 2 0 = 0 ∧
       ∀ k, 1 ≤ k → k < 2 → iterNext (buffer 2 drawsId) k 0 ≠ 0) :=
  fun h => h.2 1 (by decide) (by decide) (by decide)

/-- C1, amended: for every sweep iteration with element count `n ≥ 1`,
starting from index 0 and following `next = buffer[next]`, index 0
recurs after some number `k` of steps with `1 ≤ k ≤ n` — the cycle of
the permutation containing index 0 has length at most `n`, but not
necessarily exactly `n`. -/
theorem cycle_through_zero_returns (n : Nat) (f : Nat → Nat) (hn : 1 ≤ n) :
    ∃ k, 1 ≤ k ∧ k ≤ n ∧ iterNext (buffer n f) k 0 = 0 := by
  have h0 : (0 : Nat) < n := hn
  have hmaps : ∀ a ∈ Finset.range (n + 1),
      iterNext (buffer n f) a 0 ∈ Finset.range n := by
    intro a _
    simp only [Finset.mem_range]
    exact iterNext_lt n f a 0 h0
  have hcard : (Finset.range n).card < (Finset.range (n + 1)).card := by
    simp
  obtain ⟨a, ha, b, hb, hab, heq⟩ :=
    Finset.exists_ne_map_eq_of_card_lt_of_maps_to hcard hmaps
  rw [Finset.mem_range] at ha hb
  have key : ∀ a b : Nat, a < b → b ≤ n →
      iterNext (buffer n f) a 0 = iterNext (buffer n f) b 0 →
      ∃ k, 1 ≤ k ∧ k ≤ n ∧ iterNext (buffer n f) k 0 = 0 := by
    intro a b hlt hble he
    have hb2 : (b - a) + a = b := by omega
    have h1 := iterNext_add (buffer n f) (b - a) a 0
    rw [hb2] at h1
    have h2 : iterNext (buffer n f) a 0 =
        iterNext (buffer n f) a (iterNext (buffer n f) (b - a) 0) :=
      he.trans h1
    have hz : (0 : Nat) = iterNext (buffer n f) (b - a) 0 :=
      iterNext_inj n f a 0 _ h0 (iterNext_lt n f _ 0 h0) h2
    exact ⟨b - a, by omega, by omega, hz.symm⟩
  rcases Nat.lt_or_ge a b with hlt | hge
  · exact key a b hlt (by omega) heq
  · have hlt : b < a := by omega
    exact key b a hlt (by omega) heq.symm

/-- Witness for the amended C1 at `n = 2` with a concrete draw
sequence. -/
theorem cycle_through_zero_returns_w :
    1 ≤ 2 ∧ ∃ k, 1 ≤ k ∧ k ≤ 2 ∧ iterNext (buffer 2 drawsW) k 0 = 0 :=
  ⟨by decide, cycle_through_zero_returns 2 drawsW (by decide)⟩
